import Mathlib

/-!
Verification of the tier-list collage generator
(`app.py` / `app/controller/image_generator_controller.py`).

The Python source is shallowly embedded: pure helpers become Lean
functions on `Nat`/`String`/`List`, the stateful image-fetch path becomes
explicit state passing over an abstract disk-cache map, and machine/float
subexpressions that evaluate to fixed small integers are embedded by their
exact integer value (noted at each definition).
-/

namespace STier

/-! ## Layout constants (`generate_collage`) -/

def CANVAS_W : Nat := 1920

def MARGIN : Nat := 24

def ROW_GAP : Nat := 16

def LABEL_W : Nat := 220

def TILE_H : Nat := 180

def TILE_GAP : Nat := 10

/-- Embeds Python `int(TILE_H * 0.66)`.  With `TILE_H = 180` the float
product is `118.80000000000001`, so `int` truncates to `118`; integer
arithmetic `180 * 66 / 100` yields the same value. -/
def APPROX_TILE_W : Nat := TILE_H * 66 / 100

/-- `row_height` from `generate_collage`: estimated pixel height reserved
for a tier containing `n_tiles` tiles. -/
def row_height (n_tiles : Nat) : Nat :=
  if n_tiles = 0 then TILE_H
  else
    let usable_w := CANVAS_W - 2 * MARGIN - LABEL_W
    let approx_tile_w := APPROX_TILE_W + TILE_GAP
    let per_row := max 1 (usable_w / approx_tile_w)
    let rows := (n_tiles + per_row - 1) / per_row
    rows * (TILE_H + TILE_GAP) - TILE_GAP

/-- The row-height formula exactly as the specification words it:
usable width, approximate footprint, tiles-per-row, and
`rows = ceil(tileCount / tilesPerRow)` taken as a rational ceiling. -/
def specRowHeight (tileCount : Nat) : Nat :=
  if tileCount = 0 then 180
  else
    let usableWidth : Nat := 1920 - 2 * 24 - 220
    let approxTileFootprint : Nat := 180 * 66 / 100 + 10
    let tilesPerRow : Nat := max 1 (usableWidth / approxTileFootprint)
    let rows : Nat := ⌈(tileCount : ℚ) / (tilesPerRow : ℚ)⌉₊
    rows * (180 + 10) - 10

/-! ## Request parsing (`extract_ranks`, `extract_meta`)

`extract_ranks` matches each form key against the Python regexes
`^ranks\[(?P<id>.+?)\]$` and `^ranks\.(?P<id>.+)$` (tried in that order)
and, on a match with a non-empty value, performs the dict assignment
`ranks[id] = v`.  The regex semantics are embedded exactly: `.` matches
any character except a newline, and `$` matches at the end of the string
or just before a single trailing newline, so a full match decomposes the
key as the literal prefix, a non-empty newline-free group, the literal
suffix, and an optional final newline. -/

def newline : Char := Char.ofNat 10

/-- Python `$` tolerance: a single trailing newline is ignored by both
anchored patterns. -/
def stripNL (cs : List Char) : List Char :=
  if cs.getLast? = some newline then cs.dropLast else cs

/-- Full-match capture group of `^ranks\[(?P<id>.+?)\]$` (after `stripNL`). -/
def bracketGroup (cs : List Char) : Option (List Char) :=
  if cs.take 6 = "ranks[".data ∧ cs.getLast? = some ']' then
    let g := (cs.drop 6).dropLast
    if g ≠ [] ∧ newline ∉ g then some g else none
  else none

/-- Full-match capture group of `^ranks\.(?P<id>.+)$` (after `stripNL`). -/
def dotGroup (cs : List Char) : Option (List Char) :=
  if cs.take 6 = "ranks.".data then
    let g := cs.drop 6
    if g ≠ [] ∧ newline ∉ g then some g else none
  else none

/-- `b.match(k) or d.match(k)`: captured ID of a form key, bracket form
tried first. -/
def pyMatchId (k : String) : Option String :=
  let cs := stripNL k.data
  match bracketGroup cs with
  | some g => some (String.mk g)
  | none => (dotGroup cs).map String.mk

/-- Python dict assignment `d[k] = v` on an insertion-ordered
association list: overwrite in place, else append. -/
def dictInsert : List (String × String) → String → String → List (String × String)
  | [], k, v => [(k, v)]
  | p :: rest, k, v => if p.1 = k then (k, v) :: rest else p :: dictInsert rest k v

/-- `extract_ranks`: scan the form, keep captured IDs with non-empty
values. -/
def extract_ranks (form : List (String × String)) : List (String × String) :=
  form.foldl
    (fun acc kv =>
      match pyMatchId kv.1 with
      | some i => if kv.2 ≠ "" then dictInsert acc i kv.2 else acc
      | none => acc)
    []

/-- `k.endswith(suffix)` on character lists. -/
def strEndsWith (s suffix : String) : Bool :=
  decide (s.data.drop (s.data.length - suffix.data.length) = suffix.data)

/-- `k[:-n]`: drop the last `n` characters. -/
def strDropRight (s : String) (n : Nat) : String :=
  String.mk (s.data.take (s.data.length - n))

/-- `extract_meta`: keys ending in `-url` populate `urls`, keys ending
in `-title` populate `titles`. -/
def extract_meta (form : List (String × String)) :
    List (String × String) × List (String × String) :=
  form.foldl
    (fun acc kv =>
      if strEndsWith kv.1 "-url" then (dictInsert acc.1 (strDropRight kv.1 4) kv.2, acc.2)
      else if strEndsWith kv.1 "-title" then (acc.1, dictInsert acc.2 (strDropRight kv.1 6) kv.2)
      else acc)
    ([], [])

/-! ## Tier configuration and bucketing (`generate_collage`) -/

structure TierDef where
  key : String
  label : String
  color : Nat × Nat × Nat
deriving DecidableEq

/-- The `TIERS` table of `generate_collage`. -/
def TIERS : List TierDef :=
  [⟨"S", "Glorious Pantheon of Literary Deities", (234, 149, 148)⟩,
   ⟨"A", "Champions of the Grand Narrative", (68, 68, 68)⟩,
   ⟨"B", "Worthy Contenders for the Hero’s Feast", (232, 213, 141)⟩,
   ⟨"C", "Respectable Denizens of the Mid-Levels", (243, 236, 168)⟩,
   ⟨"D", "Shaky Survivors of Chapter 3", (214, 236, 163)⟩,
   ⟨"F", "Fodder for the Slush Pile Golems", (214, 236, 163)⟩,
   ⟨"DNF", "Vanquished by the Reader’s Apathy", (230, 230, 230)⟩,
   ⟨"ITP", "Cast Screaming Into the Pit", (210, 210, 210)⟩]

def tierKeys : List String := TIERS.map TierDef.key

/-- The bucketing loop of `generate_collage`: start from an empty bucket
per tier, then for each `(book_id, tier)` of `ranks` uppercase the value,
fall back to `"F"` when it is not a bucket key, and append `book_id`. -/
def bucketsOf (ranks : List (String × String)) : List (String × List String) :=
  ranks.foldl
    (fun bs kv =>
      let t := kv.2.toUpper
      let t2 := if (bs.map Prod.fst).contains t then t else "F"
      bs.map (fun b => if b.1 = t2 then (b.1, b.2 ++ [kv.1]) else b))
    (TIERS.map (fun tier => (tier.key, [])))

/-- Destination tier key of a rank value, as the specification words it:
the uppercased value when it is a known tier key, `"F"` otherwise. -/
def targetTier (v : String) : String :=
  if tierKeys.contains v.toUpper then v.toUpper else "F"

/-- Declarative bucketing: for each tier, in `TIERS` order, the itemIds
routed to it, in `ranks` order. -/
def specBuckets (ranks : List (String × String)) : List (String × List String) :=
  TIERS.map
    (fun tier =>
      (tier.key,
       ranks.filterMap (fun kv => if targetTier kv.2 = tier.key then some kv.1 else none)))

/-! ## Tile placement (`generate_collage` inner loop)

The loop keeps `x`, `row_y` and `count`; before pasting a tile it wraps
to a new row when `count` is non-zero and `x + tile_width` overflows
`CANVAS_W - MARGIN`. -/

/-- Row start `x0 = MARGIN + LABEL_W + TILE_GAP`. -/
def x0 : Nat := MARGIN + LABEL_W + TILE_GAP

structure PlaceState where
  x : Nat
  rowY : Nat
  count : Nat

/-- One iteration of the tile loop: the new state and the paste position
of the current tile of width `w`. -/
def placeStepSrc (st : PlaceState) (w : Nat) : PlaceState × (Nat × Nat) :=
  if st.count ≠ 0 ∧ st.x + w > CANVAS_W - MARGIN then
    (⟨x0 + w + TILE_GAP, st.rowY + TILE_H + TILE_GAP, st.count + 1⟩,
     (x0, st.rowY + TILE_H + TILE_GAP))
  else
    (⟨st.x + w + TILE_GAP, st.rowY, st.count + 1⟩, (st.x, st.rowY))

/-- Paste positions of a tier's tiles (given their widths), with the
tier's band starting at vertical offset `y`. -/
def placeTiles (y : Nat) (ws : List Nat) : List (Nat × Nat) :=
  (ws.foldl
    (fun (acc : PlaceState × List (Nat × Nat)) w =>
      let r := placeStepSrc acc.1 w
      (r.1, acc.2 ++ [r.2]))
    (⟨x0, y, 0⟩, [])).2

/-- The wrap rule as the specification words it: a tile that is not the
first of its row (the cursor is not at the row start) wraps when it
would overflow; a tile at the row start is placed without the check. -/
def placeStepSpec (st : Nat × Nat) (w : Nat) : (Nat × Nat) × (Nat × Nat) :=
  if st.1 ≠ x0 ∧ st.1 + w > CANVAS_W - MARGIN then
    ((x0 + w + TILE_GAP, st.2 + TILE_H + TILE_GAP), (x0, st.2 + TILE_H + TILE_GAP))
  else
    ((st.1 + w + TILE_GAP, st.2), (st.1, st.2))

def specPlaceTiles (y : Nat) (ws : List Nat) : List (Nat × Nat) :=
  (ws.foldl
    (fun (acc : (Nat × Nat) × List (Nat × Nat)) w =>
      let r := placeStepSpec acc.1 w
      (r.1, acc.2 ++ [r.2]))
    ((x0, y), [])).2

/-! ## Fallback tiles (`generate_collage`, missing-cover branch)

`textwrap.wrap(title, width=16)` is embedded by porting CPython
`TextWrapper` at its defaults, stage by stage: `_munge_whitespace`
(`expandtabs(8)` with the column reset at CR and LF, then translation
of TAB, LF, VT, FF, CR to spaces), the `wordsep_re` chunking (maximal
whitespace runs; em-dash runs of two or more hyphens between a
word-punctuation character and a word character; words, a word also
ending after a hyphen preceded by two letters or by letter-hyphen-letter
and followed by letter, optional hyphen, letter — the lookbehinds read
the whole text, not just the current chunk), and `_wrap_chunks` with
`drop_whitespace` (the leading whitespace chunk of every line but the
first is dropped, a trailing whitespace chunk always), greedy filling,
and `_handle_long_word` under `break_long_words` and `break_on_hyphens`
(an over-long chunk first fills the current line, breaking after the
last eligible hyphen inside the available space).  The `\w` and letter
character classes are their ASCII fragments (exact for ASCII text). -/

def tabChar : Char := Char.ofNat 9

def vtabChar : Char := Char.ofNat 11

def formFeedChar : Char := Char.ofNat 12

def carriageReturnChar : Char := Char.ofNat 13

/-- The `textwrap` whitespace class `[\t\n\x0b\x0c\r ]`. -/
def isRegexWS (c : Char) : Bool :=
  c = ' ' || c = tabChar || c = newline || c = vtabChar || c = formFeedChar ||
    c = carriageReturnChar

/-- Python `str.isspace` / `str.strip` whitespace (the Unicode set). -/
def pyStrWS (c : Char) : Bool :=
  let n := c.toNat
  (9 ≤ n && n ≤ 13) || (28 ≤ n && n ≤ 32) || n = 133 || n = 160 || n = 5760 ||
    (8192 ≤ n && n ≤ 8202) || n = 8232 || n = 8233 || n = 8239 || n = 8287 || n = 12288

/-- Regex `\w` (ASCII fragment). -/
def isWordChar (c : Char) : Bool := c.isAlphanum || c = '_'

/-- The `wordsep_re` letter class `[^\d\W]` (ASCII fragment). -/
def isLetterChar (c : Char) : Bool := c.isAlpha || c = '_'

/-- The `wordsep_re` word-punctuation class. -/
def isWordPunct (c : Char) : Bool :=
  isWordChar c || c = '!' || c = '"' || c = Char.ofNat 39 || c = '&' || c = '.' ||
    c = ',' || c = '?'

/-- `str.expandtabs(8)`: tabs advance to the next multiple of eight,
the column resetting after CR and LF. -/
def expandTabs : Nat → List Char → List Char
  | _, [] => []
  | col, c :: rest =>
    if c = tabChar then
      let k := 8 - col % 8
      List.replicate k ' ' ++ expandTabs (col + k) rest
    else if c = newline || c = carriageReturnChar then c :: expandTabs 0 rest
    else c :: expandTabs (col + 1) rest

/-- `_munge_whitespace`: expand tabs, then map the whitespace class to
spaces. -/
def munge (cs : List Char) : List Char :=
  (expandTabs 0 cs).map (fun c => if isRegexWS c then ' ' else c)

/-- Maximal prefix satisfying `p`, with the remainder. -/
def takeRun (p : Char → Bool) : List Char → List Char × List Char
  | [] => ([], [])
  | c :: rest =>
    if p c then
      let r := takeRun p rest
      (c :: r.1, r.2)
    else ([], c :: rest)

def hyphenRunLen (cs : List Char) : Nat := (takeRun (fun c => c = '-') cs).1.length

/-- Lookahead of the hyphenated-word break: letter, optional hyphen,
letter. -/
def c1Lookahead (cs : List Char) : Bool :=
  match cs with
  | a :: b :: rest =>
    isLetterChar a &&
      (isLetterChar b ||
        (b = '-' && (match rest with | c :: _ => isLetterChar c | [] => false)))
  | _ => false

/-- Lookahead of the em-dash word end: two or more hyphens, then a word
character. -/
def c3Lookahead (cs : List Char) : Bool :=
  let hr := hyphenRunLen cs
  2 ≤ hr && (match cs.drop hr with | d :: _ => isWordChar d | [] => false)

/-- The lazy word scan of `wordsep_re`: grow the chunk (`wrev`, reversed)
until the earliest of the three end alternatives fires.  `ctxRev` is the
whole text before the cursor, reversed, for the lookbehinds. -/
def scanWord : Nat → List Char → List Char → List Char → List Char × List Char
  | 0, wrev, _, rest => (wrev.reverse, rest)
  | fuel + 1, wrev, ctxRev, rest =>
    let c1fire :=
      match rest with
      | '-' :: rest2 =>
        ((match ctxRev with
          | x :: y :: _ => isLetterChar x && isLetterChar y
          | _ => false) ||
         (match ctxRev with
          | x :: y :: z :: _ => isLetterChar x && y = '-' && isLetterChar z
          | _ => false)) &&
          c1Lookahead rest2
      | _ => false
    if c1fire then (wrev.reverse ++ ['-'], rest.drop 1)
    else
      match rest with
      | [] => (wrev.reverse, [])
      | c :: rest2 =>
        if isRegexWS c then (wrev.reverse, c :: rest2)
        else if (match ctxRev with | h :: _ => isWordPunct h | [] => false) &&
            c3Lookahead (c :: rest2) then
          (wrev.reverse, c :: rest2)
        else scanWord fuel (c :: wrev) (c :: ctxRev) rest2

/-- `wordsep_re` chunking: whitespace runs, em-dash runs, words. -/
def splitChunksGo : Nat → List Char → List Char → List (List Char)
  | 0, _, _ => []
  | _ + 1, _, [] => []
  | fuel + 1, doneRev, c :: rest =>
    if isRegexWS c then
      let r := takeRun isRegexWS (c :: rest)
      r.1 :: splitChunksGo fuel (r.1.reverse ++ doneRev) r.2
    else
      let hr := hyphenRunLen (c :: rest)
      let isB := (match doneRev with | p :: _ => isWordPunct p | [] => false) && 2 ≤ hr &&
        (match (c :: rest).drop hr with | d :: _ => isWordChar d | [] => false)
      if isB then
        ((c :: rest).take hr) ::
          splitChunksGo fuel (((c :: rest).take hr).reverse ++ doneRev) ((c :: rest).drop hr)
      else
        let r := scanWord (rest.length + 1) [c] (c :: doneRev) rest
        r.1 :: splitChunksGo fuel (r.1.reverse ++ doneRev) r.2

def splitChunks (cs : List Char) : List (List Char) :=
  splitChunksGo (cs.length + 1) [] cs

def sumLen (cs : List (List Char)) : Nat := (cs.map List.length).sum

/-- `chunk.rfind('-', 0, bound)`, as an optional index. -/
def rfindHyphen (cs : List Char) (bound : Nat) : Option Nat :=
  (((cs.take bound).enum.filter (fun q => q.2 = '-')).getLast?).map Prod.fst

/-- Cut point of `_handle_long_word`: the space left on the line, or
just after the last eligible hyphen inside it. -/
def longWordEnd (spaceLeft : Nat) (chunk : List Char) : Nat :=
  if chunk.length > spaceLeft then
    match rfindHyphen chunk spaceLeft with
    | some i =>
      if 0 < i && (chunk.take i).any (fun c => c ≠ '-') then i + 1 else spaceLeft
    | none => spaceLeft
  else spaceLeft

def handleLongWord (spaceLeft : Nat) (chunk : List Char) : List Char × List Char :=
  (chunk.take (longWordEnd spaceLeft chunk), chunk.drop (longWordEnd spaceLeft chunk))

/-- Greedy chunk intake of `_wrap_chunks`: take chunks while the line
stays within 16 columns. -/
def takeFit : Nat → List (List Char) → List (List Char) × List (List Char)
  | _, [] => ([], [])
  | cl, c :: rest =>
    if cl + c.length ≤ 16 then
      let r := takeFit (cl + c.length) rest
      (c :: r.1, r.2)
    else ([], c :: rest)

/-- `chunk.strip() == ''`. -/
def isStripEmpty (cs : List Char) : Bool := cs.all pyStrWS

/-- Drop a final all-whitespace chunk from the line, as
`drop_whitespace` does. -/
def dropTrailingWS (cur : List (List Char)) : List (List Char) :=
  match cur.getLast? with
  | some lc => if isStripEmpty lc then cur.dropLast else cur
  | none => cur

/-- One `_wrap_chunks` iteration: greedy intake, the long-word cut, and
the trailing-whitespace drop; returns the line chunks and the rest. -/
def buildLine (chunks : List (List Char)) : List (List Char) × List (List Char) :=
  let tf := takeFit 0 chunks
  let cur := tf.1
  let step :=
    match tf.2 with
    | c :: rest2 =>
      if c.length > 16 then
        let hl := handleLongWord (16 - sumLen cur) c
        (cur ++ [hl.1], hl.2 :: rest2)
      else (cur, c :: rest2)
    | [] => (cur, [])
  (dropTrailingWS step.1, step.2)

/-- The `_wrap_chunks` loop; `started` records whether a line has been
emitted (the leading whitespace chunk is kept only on the first line). -/
def wrapGo : Nat → Bool → List (List Char) → List (List Char)
  | 0, _, _ => []
  | _ + 1, _, [] => []
  | fuel + 1, started, c :: rest =>
    let chunks1 := if started && isStripEmpty c then rest else c :: rest
    let bl := buildLine chunks1
    if bl.1 = [] then wrapGo fuel started bl.2
    else bl.1.flatten :: wrapGo fuel true bl.2

/-- `textwrap.wrap(s, width=16)`. -/
def wrap16 (s : String) : List String :=
  let chunks := splitChunks (munge s.data)
  (wrapGo (sumLen chunks + chunks.length + 1) false chunks).map String.mk

/-- One `d2.text(...)` call of the fallback branch: the text, and the
pixel offsets it is drawn at inside the block. -/
structure TextDraw where
  text : String
  px : Nat
  py : Nat
deriving DecidableEq

/-- The fallback block: `Image.new("RGB", (int(TILE_H * 0.66), TILE_H),
(40, 40, 40))` with the first six wrapped title lines drawn top-down. -/
structure FallbackTile where
  width : Nat
  height : Nat
  fill : Nat × Nat × Nat
  texts : List TextDraw
deriving DecidableEq

/-- The fallback branch of the tile loop for one `book_id`. -/
def fallbackTile (book_id : String) (titles : String → Option String) : FallbackTile :=
  let title := (titles book_id).getD book_id
  let lines := wrap16 title
  { width := TILE_H * 66 / 100
    height := TILE_H
    fill := (40, 40, 40)
    texts := (lines.take 6).enum.map (fun p => ⟨p.2, 6, 8 + 20 * p.1⟩) }

/-! ## SHA-256 (`hashlib.sha256(...).hexdigest()`)

Full embedding of SHA-256 over byte lists, with 32-bit words as `Nat`
reduced mod `2^32`. -/

def w32 (x : Nat) : Nat := x % 4294967296

def rotr (n x : Nat) : Nat := w32 ((x >>> n) + ((x % (1 <<< n)) <<< (32 - n)))

def shaK : List Nat :=
  [1116352408, 1899447441, 3049323471, 3921009573,
   961987163, 1508970993, 2453635748, 2870763221,
   3624381080, 310598401, 607225278, 1426881987,
   1925078388, 2162078206, 2614888103, 3248222580,
   3835390401, 4022224774, 264347078, 604807628,
   770255983, 1249150122, 1555081692, 1996064986,
   2554220882, 2821834349, 2952996808, 3210313671,
   3336571891, 3584528711, 113926993, 338241895,
   666307205, 773529912, 1294757372, 1396182291,
   1695183700, 1986661051, 2177026350, 2456956037,
   2730485921, 2820302411, 3259730800, 3345764771,
   3516065817, 3600352804, 4094571909, 275423344,
   430227734, 506948616, 659060556, 883997877,
   958139571, 1322822218, 1537002063, 1747873779,
   1955562222, 2024104815, 2227730452, 2361852424,
   2428436474, 2756734187, 3204031479, 3329325298]

def shaH0 : List Nat :=
  [1779033703, 3144134277, 1013904242, 2773480762,
   1359893119, 2600822924, 528734635, 1541459225]

structure Regs where
  a : Nat
  b : Nat
  c : Nat
  d : Nat
  e : Nat
  f : Nat
  g : Nat
  h : Nat

def msgSchedule (w : Array Nat) : Array Nat :=
  (List.range 48).foldl
    (fun w j =>
      let i := j + 16
      let x15 := w[i - 15]!
      let x2 := w[i - 2]!
      let s0 := (rotr 7 x15) ^^^ (rotr 18 x15) ^^^ (x15 >>> 3)
      let s1 := (rotr 17 x2) ^^^ (rotr 19 x2) ^^^ (x2 >>> 10)
      w.push (w32 (w[i - 16]! + s0 + w[i - 7]! + s1)))
    w

def round1 (r : Regs) (kw : Nat × Nat) : Regs :=
  let s1 := (rotr 6 r.e) ^^^ (rotr 11 r.e) ^^^ (rotr 25 r.e)
  let ch := (r.e &&& r.f) ^^^ ((r.e ^^^ 4294967295) &&& r.g)
  let t1 := w32 (r.h + s1 + ch + kw.1 + kw.2)
  let s0 := (rotr 2 r.a) ^^^ (rotr 13 r.a) ^^^ (rotr 22 r.a)
  let mj := (r.a &&& r.b) ^^^ (r.a &&& r.c) ^^^ (r.b &&& r.c)
  let t2 := w32 (s0 + mj)
  ⟨w32 (t1 + t2), r.a, r.b, r.c, w32 (r.d + t1), r.e, r.f, r.g⟩

def bytesToWords : List Nat → List Nat
  | b0 :: b1 :: b2 :: b3 :: rest => (((b0 * 256 + b1) * 256 + b2) * 256 + b3) :: bytesToWords rest
  | _ => []

def processChunk (hs : List Nat) (chunk : List Nat) : List Nat :=
  let w := msgSchedule (Array.mk (bytesToWords chunk))
  let init : Regs :=
    ⟨hs[0]!, hs[1]!, hs[2]!, hs[3]!, hs[4]!, hs[5]!, hs[6]!, hs[7]!⟩
  let r := (shaK.zip w.toList).foldl round1 init
  [w32 (hs[0]! + r.a), w32 (hs[1]! + r.b), w32 (hs[2]! + r.c), w32 (hs[3]! + r.d),
   w32 (hs[4]! + r.e), w32 (hs[5]! + r.f), w32 (hs[6]! + r.g), w32 (hs[7]! + r.h)]

def chunksGo : Nat → List Nat → List (List Nat)
  | 0, _ => []
  | _ + 1, [] => []
  | fuel + 1, l => l.take 64 :: chunksGo fuel (l.drop 64)

def chunks (l : List Nat) : List (List Nat) := chunksGo l.length l

def padMsg (msg : List Nat) : List Nat :=
  let l := msg.length
  let zeros := (64 - (l + 9) % 64) % 64
  msg ++ [128] ++ List.replicate zeros 0 ++
    (List.range 8).map (fun i => ((8 * l) >>> (8 * (7 - i))) % 256)

def sha256Words (msg : List Nat) : List Nat :=
  (chunks (padMsg msg)).foldl processChunk shaH0

def hexChar (n : Nat) : Char :=
  if n < 10 then Char.ofNat (48 + n) else Char.ofNat (87 + n)

def wordHex (n : Nat) : List Char :=
  (List.range 8).map (fun i => hexChar ((n >>> (4 * (7 - i))) % 16))

/-- `hashlib.sha256(bytes).hexdigest()` as a character list. -/
def hexdigest (msg : List Nat) : List Char :=
  ((sha256Words msg).map wordHex).flatten

/-- UTF-8 encoding of one scalar value (`str.encode("utf-8")`). -/
def utf8Bytes (c : Char) : List Nat :=
  let n := c.toNat
  if n < 128 then [n]
  else if n < 2048 then [192 + n / 64, 128 + n % 64]
  else if n < 65536 then [224 + n / 4096, 128 + n / 64 % 64, 128 + n % 64]
  else [240 + n / 262144, 128 + n / 4096 % 64, 128 + n / 64 % 64, 128 + n % 64]

def strBytes (s : String) : List Nat := (s.data.map utf8Bytes).flatten

/-! ## Cache paths (`_ns_dir`, `_cache_path`) -/

/-- First `n` hex characters of the SHA-256 digest of a string,
`hashlib.sha256(s.encode("utf-8")).hexdigest()[:n]`. -/
def truncDigest (s : String) (n : Nat) : List Char :=
  (hexdigest (strBytes s)).take n

/-- Namespace directory component: `"shared" if not namespace else
sha256(namespace).hexdigest()[:16]`. -/
def nsComponent : Option String → String
  | none => "shared"
  | some s => if s = "" then "shared" else String.mk (truncDigest s 16)

/-- `_ns_dir`: `os.path.join(cache_root, ns)`. -/
def ns_dir (root : String) (ns : Option String) : String :=
  root ++ "/" ++ nsComponent ns

/-- `_cache_path`: `os.path.join(ns_dir, f"{h}.jpg")` with
`h = sha256(url).hexdigest()[:32]`. -/
def cache_path (root : String) (url : String) (ns : Option String) : String :=
  ns_dir root ns ++ "/" ++ String.mk (truncDigest url 32) ++ ".jpg"

/-! ## Image fetching (`fetch_cover`)

The outside world is abstracted: the disk cache is a map from paths to
raw byte contents, `requests.get(url)` either yields the response bytes
(2xx) or fails (`None`), and PIL decoding of raw bytes either yields a
decoded RGB image or fails.  All exception paths of the source converge
to `None` returns, embedded as `Option`. -/

/-- Python truthiness of the `url` argument: `if not url`. -/
def pyFalsy : Option String → Bool
  | none => true
  | some s => s == ""

structure FetchEnv (Img : Type) where
  net : Option (List Nat)
  decode : List Nat → Option Img

def Cache : Type := String → Option (List Nat)

/-- `fetch_cover(url, namespace)`: result image (or `None`) and the
cache state after the call. -/
def fetch_cover {Img : Type} (url : Option String) (ns : Option String) (root : String)
    (env : FetchEnv Img) (cache : Cache) : Option Img × Cache :=
  if pyFalsy url then (none, cache)
  else
    let path := cache_path root (url.getD "") ns
    let cached : Option Img :=
      match cache path with
      | some b => env.decode b
      | none => none
    match cached with
    | some im => (some im, cache)
    | none =>
      match env.net with
      | none => (none, cache)
      | some bytes => (env.decode bytes, fun p => if p = path then some bytes else cache p)

/-! ## Collage assembly and the `/generate-rank-image` route

`generate_collage` is assembled from the components above.  Per-tile
image fetching is abstracted by an oracle `fetchImg` giving the decoded
size of a cover, `none` for a missing or unfetchable one; the falsy-URL
short-circuit of `fetch_cover` is kept explicit.  The float scaling
`int(w * (TILE_H / h))` is embedded as `w * TILE_H / h`. -/

inductive TileImg where
  | real : Nat × Nat → TileImg
  | fallback : FallbackTile → TileImg

def tileImgWidth : TileImg → Nat
  | .real s => s.1
  | .fallback f => f.width

structure TierRender where
  tier : TierDef
  labelRect : (Nat × Nat) × (Nat × Nat)
  labelText : String × (Nat × Nat)
  tiles : List ((Nat × Nat) × TileImg)

structure Collage where
  width : Nat
  height : Nat
  bg : Nat × Nat × Nat
  tiers : List TierRender

/-- `d.get(k)` on an insertion-ordered association list. -/
def lookupD (l : List (String × String)) (k : String) : Option String :=
  (l.find? (fun p => p.1 == k)).map Prod.snd

/-- `generate_collage(ranks, urls, titles)`. -/
def generate_collage (ranks urls titles : List (String × String))
    (fetchImg : String → Option (Nat × Nat)) : Collage :=
  let buckets := bucketsOf ranks
  let bucketOf := fun key => ((buckets.find? (fun b => b.1 == key)).map Prod.snd).getD []
  let total_h :=
    2 * MARGIN + ((TIERS.map (fun t => row_height (bucketOf t.key).length + ROW_GAP)).sum) - ROW_GAP
  let tiers :=
    (TIERS.foldl
      (fun (acc : Nat × List TierRender) tier =>
        let bucket := bucketOf tier.key
        let y := acc.1
        let tiles := bucket.map
          (fun book_id =>
            let u := lookupD urls book_id
            let cover := if pyFalsy u then none else fetchImg (u.getD "")
            match cover with
            | none => TileImg.fallback (fallbackTile book_id (lookupD titles))
            | some s => TileImg.real (max 1 (s.1 * TILE_H / s.2), TILE_H))
        let positions := placeTiles y (tiles.map tileImgWidth)
        let tr : TierRender :=
          ⟨tier,
           ((MARGIN, y), (MARGIN + LABEL_W, y + TILE_H)),
           (tier.label, (MARGIN + 12, y + (TILE_H - 24) / 2)),
           positions.zip tiles⟩
        (y + row_height bucket.length + ROW_GAP, acc.2 ++ [tr]))
      (MARGIN, [])).2
  ⟨CANVAS_W, total_h, (20, 20, 20), tiers⟩

inductive RouteResult (α : Type) where
  | ok : α → RouteResult α
  | err : Nat → String → RouteResult α

/-- The `/generate-rank-image` route: abort 400 on an empty form, abort
400 with "No ranks selected" when no ranks were extracted, otherwise
build and return the collage. -/
def generate_rank_image (form : List (String × String))
    (fetchImg : String → Option (Nat × Nat)) : RouteResult Collage :=
  if form = [] then .err 400 "No form data received"
  else
    let ranks := extract_ranks form
    if ranks = [] then .err 400 "No ranks selected"
    else
      let meta := extract_meta form
      .ok (generate_collage ranks meta.1 meta.2 fetchImg)

end STier

namespace STier

/-! ## Theorems -/

/-- Rational ceiling of a division of naturals is the rounded-up integer
division. -/
theorem nat_ceil_div_eq (n per : Nat) (hper : 0 < per) :
    ⌈(n : ℚ) / (per : ℚ)⌉₊ = (n + per - 1) / per := by
  apply le_antisymm
  · rw [Nat.ceil_le, div_le_iff₀ (by exact_mod_cast hper)]
    have h1 : n ≤ (n + per - 1) / per * per := by
      have hd := Nat.div_add_mod (n + per - 1) per
      have hm : (n + per - 1) % per < per := Nat.mod_lt _ hper
      rw [Nat.mul_comm]
      omega
    exact_mod_cast h1
  · have h2 : (n : ℚ) / (per : ℚ) ≤ (⌈(n : ℚ) / (per : ℚ)⌉₊ : ℚ) := Nat.le_ceil _
    rw [div_le_iff₀ (by exact_mod_cast hper)] at h2
    have h3 : n ≤ ⌈(n : ℚ) / (per : ℚ)⌉₊ * per := by exact_mod_cast h2
    rw [Nat.mul_comm] at h3
    rw [Nat.div_le_iff_le_mul_add_pred hper]
    omega

/-- C2: `row_height` returns `TILE_H = 180` for an empty tier and
otherwise `rows * (tileHeight + tileGap) - tileGap` with
`usableWidth = 1920 - 2*24 - 220`,
`approxTileFootprint = floor(180 * 0.66) + 10`,
`tilesPerRow = max 1 (usableWidth / approxTileFootprint)` and
`rows = ceil(tileCount / tilesPerRow)`; in particular an empty tier
reserves exactly 180 pixels. -/
theorem row_height_formula (n : Nat) :
    row_height n = specRowHeight n ∧ row_height 0 = 180 := by
  constructor
  · by_cases h : n = 0
    · simp [h, row_height, specRowHeight, TILE_H]
    · have hceil := nat_ceil_div_eq n 12 (by norm_num)
      simp only [row_height, specRowHeight, if_neg h, CANVAS_W, MARGIN, LABEL_W,
        TILE_H, TILE_GAP, APPROX_TILE_W]
      norm_num
      rw [show ((12 : ℕ) : ℚ) = (12 : ℚ) from by norm_num] at hceil
      rw [hceil]
      omega
  · simp [row_height, TILE_H]

theorem placeStepSrc_pos {st : PlaceState} {w : Nat}
    (h : st.count ≠ 0 ∧ st.x + w > CANVAS_W - MARGIN) :
    placeStepSrc st w =
      (⟨x0 + w + TILE_GAP, st.rowY + TILE_H + TILE_GAP, st.count + 1⟩,
       (x0, st.rowY + TILE_H + TILE_GAP)) := by
  unfold placeStepSrc
  rw [if_pos h]

theorem placeStepSrc_neg {st : PlaceState} {w : Nat}
    (h : ¬(st.count ≠ 0 ∧ st.x + w > CANVAS_W - MARGIN)) :
    placeStepSrc st w =
      (⟨st.x + w + TILE_GAP, st.rowY, st.count + 1⟩, (st.x, st.rowY)) := by
  unfold placeStepSrc
  rw [if_neg h]

theorem placeStepSpec_pos {st : Nat × Nat} {w : Nat}
    (h : st.1 ≠ x0 ∧ st.1 + w > CANVAS_W - MARGIN) :
    placeStepSpec st w =
      ((x0 + w + TILE_GAP, st.2 + TILE_H + TILE_GAP), (x0, st.2 + TILE_H + TILE_GAP)) := by
  unfold placeStepSpec
  rw [if_pos h]

theorem placeStepSpec_neg {st : Nat × Nat} {w : Nat}
    (h : ¬(st.1 ≠ x0 ∧ st.1 + w > CANVAS_W - MARGIN)) :
    placeStepSpec st w = ((st.1 + w + TILE_GAP, st.2), (st.1, st.2)) := by
  unfold placeStepSpec
  rw [if_neg h]

/-- C10: the empty-string namespace is falsy in `_ns_dir`, so it resolves
to the same `"shared"` cache directory, and hence the same cache path for
every URL, as the `None` namespace. -/
theorem empty_namespace_shared (root url : String) :
    cache_path root url (some "") = cache_path root url none := rfl

/-- Helper invariant for the tile loop: the running states of the source
fold (tracking `count`) and the specification fold (tracking only the
cursor) stay in lockstep, because the cursor sits at the row start
exactly when no tile of the tier has been placed yet. -/
theorem placeFold_eq (ws : List Nat) :
    ∀ (stS : PlaceState) (stT : Nat × Nat) (acc : List (Nat × Nat)),
      stS.x = stT.1 → stS.rowY = stT.2 → x0 ≤ stS.x → (stS.x = x0 ↔ stS.count = 0) →
      (ws.foldl
        (fun (a : PlaceState × List (Nat × Nat)) w =>
          let r := placeStepSrc a.1 w
          (r.1, a.2 ++ [r.2])) (stS, acc)).2 =
      (ws.foldl
        (fun (a : (Nat × Nat) × List (Nat × Nat)) w =>
          let r := placeStepSpec a.1 w
          (r.1, a.2 ++ [r.2])) (stT, acc)).2 := by
  induction ws with
  | nil => intro stS stT acc h1 h2 h3 h4; rfl
  | cons w ws ih =>
    intro stS stT acc h1 h2 h3 h4
    simp only [List.foldl_cons]
    have hcond : (stS.count ≠ 0 ∧ stS.x + w > CANVAS_W - MARGIN) ↔
        (stT.1 ≠ x0 ∧ stT.1 + w > CANVAS_W - MARGIN) := by
      rw [← h1]
      constructor
      · rintro ⟨hc, ho⟩; exact ⟨fun hx => hc (h4.1 hx), ho⟩
      · rintro ⟨hx, ho⟩; exact ⟨fun hc => hx (h4.2 hc), ho⟩
    by_cases hc : stS.count ≠ 0 ∧ stS.x + w > CANVAS_W - MARGIN
    · rw [placeStepSrc_pos hc, placeStepSpec_pos (hcond.1 hc), h2]
      apply ih ⟨x0 + w + TILE_GAP, stT.2 + TILE_H + TILE_GAP, stS.count + 1⟩
        (x0 + w + TILE_GAP, stT.2 + TILE_H + TILE_GAP) (acc ++ [(x0, stT.2 + TILE_H + TILE_GAP)])
      · rfl
      · rfl
      · show x0 ≤ x0 + w + TILE_GAP
        omega
      · show x0 + w + TILE_GAP = x0 ↔ stS.count + 1 = 0
        simp only [TILE_GAP]
        omega
    · rw [placeStepSrc_neg hc, placeStepSpec_neg (fun hx => hc (hcond.2 hx))]
      rw [h1, h2]
      apply ih ⟨stT.1 + w + TILE_GAP, stT.2, stS.count + 1⟩
        (stT.1 + w + TILE_GAP, stT.2) (acc ++ [(stT.1, stT.2)])
      · rfl
      · rfl
      · show x0 ≤ stT.1 + w + TILE_GAP
        omega
      · show stT.1 + w + TILE_GAP = x0 ↔ stS.count + 1 = 0
        rw [← h1]
        simp only [TILE_GAP]
        omega

/-- C6: the tile loop wraps exactly as specified: a tile placed while the
cursor is away from the row start `x0 = MARGIN + LABEL_W + TILE_GAP`
wraps when `x + tileWidth` would exceed `CANVAS_W - MARGIN`, resetting
`x` to `x0` and advancing the row cursor by `TILE_H + TILE_GAP`, while a
tile at the row start is placed without the check. -/
theorem tile_wrap_placement (y : Nat) (ws : List Nat) :
    placeTiles y ws = specPlaceTiles y ws := by
  unfold placeTiles specPlaceTiles
  exact placeFold_eq ws ⟨x0, y, 0⟩ (x0, y) [] rfl rfl le_rfl (by simp)

/-- C8: with an empty or absent ranks mapping the route aborts with a
distinct 400 error ("No ranks selected" whenever any form data was
present at all) instead of producing an image, and with a non-empty
ranks mapping it returns a collage for every fetch oracle — missing or
unfetchable images never make `generate_collage` fail. -/
theorem route_empty_ranks_fails_fast (form : List (String × String))
    (fetchImg : String → Option (Nat × Nat)) :
    (extract_ranks form = [] →
      ∃ msg, generate_rank_image form fetchImg = .err 400 msg) ∧
    (form ≠ [] → extract_ranks form = [] →
      generate_rank_image form fetchImg = .err 400 "No ranks selected") ∧
    (extract_ranks form ≠ [] →
      generate_rank_image form fetchImg =
        .ok (generate_collage (extract_ranks form)
              (extract_meta form).1 (extract_meta form).2 fetchImg)) := by
  unfold generate_rank_image
  by_cases hf : form = []
  · subst hf
    refine ⟨fun _ => ⟨"No form data received", rfl⟩, fun hne _ => absurd rfl hne, fun hr => ?_⟩
    exact absurd rfl hr
  · rw [if_neg hf]
    by_cases hr : extract_ranks form = []
    · rw [if_pos hr]
      exact ⟨fun _ => ⟨"No ranks selected", rfl⟩, fun _ _ => rfl, fun h => absurd hr h⟩
    · rw [if_neg hr]
      exact ⟨fun h => absurd h hr, fun _ h => absurd h hr, fun _ => rfl⟩

/-- Witness for C8 at concrete inputs: a form with no rank key is
rejected with "No ranks selected", and a one-rank form produces a
collage. -/
theorem route_empty_ranks_fails_fast_witness :
    generate_rank_image [("other", "x")] (fun _ => none) = .err 400 "No ranks selected" ∧
    generate_rank_image [("ranks[b1]", "S")] (fun _ => none) =
      .ok (generate_collage [("b1", "S")] [] [] (fun _ => none)) := by
  constructor
  · exact (route_empty_ranks_fails_fast [("other", "x")] (fun _ => none)).2.1
      (by decide) (by decide)
  · have h := (route_empty_ranks_fails_fast [("ranks[b1]", "S")] (fun _ => none)).2.2
      (by decide)
    have he : extract_ranks [("ranks[b1]", "S")] = [("b1", "S")] := by decide
    have hm1 : (extract_meta [("ranks[b1]", "S")]).1 = [] := by decide
    have hm2 : (extract_meta [("ranks[b1]", "S")]).2 = [] := by decide
    rw [he, hm1, hm2] at h
    exact h

/-- C3: `fetch_cover` is total with all failure paths converging to
`none`: a falsy (null/empty) URL returns `none` with the cache
untouched; a cached file whose decode fails is treated as a miss, the
call devolving to the network path (whose bytes are decoded and, when
the GET succeeds, persisted); and a network failure, like a decode
failure of fetched bytes, returns `none`. -/
theorem fetch_cover_never_raises {Img : Type} (url ns : Option String) (root : String)
    (env : FetchEnv Img) (cache : Cache) :
    (pyFalsy url = true → fetch_cover url ns root env cache = (none, cache)) ∧
    (∀ b, pyFalsy url = false →
      cache (cache_path root (url.getD "") ns) = some b → env.decode b = none →
      fetch_cover url ns root env cache =
        (env.net.bind env.decode,
         match env.net with
         | none => cache
         | some bytes =>
             fun p => if p = cache_path root (url.getD "") ns then some bytes else cache p)) ∧
    (pyFalsy url = false → env.net = none →
      cache (cache_path root (url.getD "") ns) = none ∨
        (∃ b, cache (cache_path root (url.getD "") ns) = some b ∧ env.decode b = none) →
      fetch_cover url ns root env cache = (none, cache)) ∧
    (∀ bytes, pyFalsy url = false → env.net = some bytes → env.decode bytes = none →
      cache (cache_path root (url.getD "") ns) = none ∨
        (∃ b, cache (cache_path root (url.getD "") ns) = some b ∧ env.decode b = none) →
      (fetch_cover url ns root env cache).1 = none) := by
  refine ⟨?_, ?_, ?_, ?_⟩
  · intro h
    unfold fetch_cover
    rw [if_pos h]
  · intro b hu hb hd
    unfold fetch_cover
    rw [if_neg (by simp [hu])]
    simp only [hb, hd]
    cases env.net <;> simp
  · intro hu hn hmiss
    unfold fetch_cover
    rw [if_neg (by simp [hu])]
    rcases hmiss with hnone | ⟨b, hb, hd⟩
    · simp only [hnone, hn]
    · simp only [hb, hd, hn]
  · intro bytes hu hn hd hmiss
    unfold fetch_cover
    rw [if_neg (by simp [hu])]
    rcases hmiss with hnone | ⟨b, hb, hbd⟩
    · simp only [hnone, hn, hd]
    · simp only [hb, hbd, hn, hd]

/-- Witness for C3 at concrete inputs: an empty URL short-circuits, and
with a corrupt cache entry plus a failing network the call returns
`none` leaving the cache unchanged. -/
theorem fetch_cover_never_raises_witness :
    @fetch_cover Nat (some "") none "root"
        ⟨none, fun _ => none⟩ (fun _ => some [0]) = (none, fun _ => some [0]) ∧
    @fetch_cover Nat (some "u") none "root"
        ⟨none, fun _ => none⟩ (fun _ => some [0]) = (none, fun _ => some [0]) := by
  constructor
  · exact (fetch_cover_never_raises (some "") none "root"
      ⟨none, fun _ => none⟩ (fun _ => some [0])).1 rfl
  · exact (fetch_cover_never_raises (some "u") none "root"
      ⟨none, fun _ => none⟩ (fun _ => some [0])).2.2.1 rfl rfl (Or.inr ⟨[0], rfl, rfl⟩)

/-- C9 fails on the code: a cache entry whose bytes do not decode is
overwritten by a later `fetch_cover` of the same (namespace, url) pair
when the network fetch succeeds.  Concretely, with bytes `[0]` cached at
the pair's path, a decoder rejecting `[0]`, and a network response
`[1]`, the entry's bytes change from `[0]` to `[1]`. -/
theorem cache_entry_overwritten :
    ((@fetch_cover Nat (some "u") none "root"
        ⟨some [1], fun b => if b = [1] then some 7 else none⟩
        (fun p => if p = cache_path "root" "u" none then some [0] else none)).2)
      (cache_path "root" "u" none) = some [1] ∧
    ((fun p => if p = cache_path "root" "u" none then some [0] else none)
      (cache_path "root" "u" none) = some [0]) ∧
    some [1] ≠ some [0] := by
  refine ⟨?_, by simp, by simp⟩
  unfold fetch_cover
  rw [if_neg (by decide)]
  simp

/-- C9 amended: a cache entry whose bytes decode successfully is never
changed by a later `fetch_cover` for the pair — the call returns the
decoded image and leaves the whole cache untouched.  (An entry whose
bytes fail to decode may be overwritten by a later successful network
fetch.) -/
theorem cache_entry_immutable_when_decodable {Img : Type} (url ns : Option String)
    (root : String) (env : FetchEnv Img) (cache : Cache) (b : List Nat) (im : Img)
    (hu : pyFalsy url = false)
    (hb : cache (cache_path root (url.getD "") ns) = some b)
    (hd : env.decode b = some im) :
    fetch_cover url ns root env cache = (some im, cache) := by
  unfold fetch_cover
  rw [if_neg (by simp [hu])]
  simp only [hb, hd]

/-- Witness for the amended C9 at concrete inputs. -/
theorem cache_entry_immutable_when_decodable_witness :
    @fetch_cover Nat (some "u") none "root"
        ⟨none, fun b => if b = [0] then some 3 else none⟩ (fun _ => some [0]) =
      (some 3, fun _ => some [0]) :=
  cache_entry_immutable_when_decodable (some "u") none "root"
    ⟨none, fun b => if b = [0] then some 3 else none⟩ (fun _ => some [0]) [0] 3
    rfl rfl rfl

theorem enumFrom_map_snd {α : Type} (n : Nat) (l : List α) :
    (l.enumFrom n).map Prod.snd = l := by
  induction l generalizing n with
  | nil => rfl
  | cons a l ih => simp [List.enumFrom, ih]

theorem takeFit_sumLen (chunks : List (List Char)) :
    ∀ cl, cl ≤ 16 → cl + sumLen (takeFit cl chunks).1 ≤ 16 := by
  induction chunks with
  | nil =>
    intro cl h
    simpa [takeFit, sumLen] using h
  | cons c rest ih =>
    intro cl h
    simp only [takeFit]
    split_ifs with hfit
    · have hrec := ih (cl + c.length) hfit
      simp only [sumLen, List.map_cons, List.sum_cons] at hrec ⊢
      omega
    · simpa [sumLen] using h

theorem rfindHyphen_lt {cs : List Char} {bound i : Nat}
    (h : rfindHyphen cs bound = some i) : i < bound := by
  unfold rfindHyphen at h
  cases hq : ((cs.take bound).enum.filter (fun q => q.2 = '-')).getLast? with
  | none => rw [hq] at h; cases h
  | some p =>
    rw [hq] at h
    simp only [Option.map_some', Option.some.injEq] at h
    have hmem := List.mem_of_getLast?_eq_some hq
    have hmem2 := List.mem_of_mem_filter hmem
    have h3 := List.mem_enum_iff_getElem?.1 hmem2
    have h4 : p.1 < (cs.take bound).length := by
      rcases List.getElem?_eq_some.1 h3 with ⟨hlt, _⟩
      exact hlt
    have h5 : (cs.take bound).length ≤ bound := List.length_take_le bound cs
    omega

theorem longWordEnd_le (sl : Nat) (chunk : List Char) : longWordEnd sl chunk ≤ sl := by
  unfold longWordEnd
  split_ifs with h1
  · split
    · rename_i j heq
      have hj := rfindHyphen_lt heq
      split_ifs with h2
      · omega
      · exact le_refl sl
    · exact le_refl sl
  · exact le_refl sl

theorem handleLongWord_length (sl : Nat) (chunk : List Char) :
    (handleLongWord sl chunk).1.length ≤ sl := by
  unfold handleLongWord
  calc (chunk.take (longWordEnd sl chunk)).length ≤ longWordEnd sl chunk :=
        List.length_take_le _ chunk
    _ ≤ sl := longWordEnd_le sl chunk

theorem sumLen_dropLast_le (l : List (List Char)) : sumLen l.dropLast ≤ sumLen l := by
  induction l with
  | nil => simp
  | cons a l ih =>
    cases l with
    | nil => simp [sumLen]
    | cons b m =>
      simp only [List.dropLast_cons₂, sumLen, List.map_cons, List.sum_cons] at ih ⊢
      omega

theorem dropTrailingWS_sumLen_le (cur : List (List Char)) :
    sumLen (dropTrailingWS cur) ≤ sumLen cur := by
  unfold dropTrailingWS
  split
  · split_ifs
    · exact sumLen_dropLast_le cur
    · exact le_refl _
  · exact le_refl _

/-- Every line `_wrap_chunks` builds holds at most 16 characters. -/
theorem buildLine_sumLen (chunks : List (List Char)) :
    sumLen (buildLine chunks).1 ≤ 16 := by
  unfold buildLine
  refine le_trans (dropTrailingWS_sumLen_le _) ?_
  have hcur := takeFit_sumLen chunks 0 (by norm_num)
  cases htf : (takeFit 0 chunks).2 with
  | nil =>
    simp only [htf]
    omega
  | cons c rest2 =>
    simp only [htf]
    split_ifs with hc
    · have hp := handleLongWord_length (16 - sumLen (takeFit 0 chunks).1) c
      simp only [sumLen, List.map_append, List.sum_append, List.map_cons,
        List.sum_cons, List.map_nil, List.sum_nil] at hp hcur ⊢
      omega
    · simpa using hcur

theorem wrapGo_lines_le (fuel : Nat) :
    ∀ started chunks, ∀ l ∈ wrapGo fuel started chunks, l.length ≤ 16 := by
  induction fuel with
  | zero =>
    intro s c l hl
    simp [wrapGo] at hl
  | succ fuel ih =>
    intro started chunks l hl
    cases chunks with
    | nil => simp [wrapGo] at hl
    | cons c0 rest0 =>
      simp only [wrapGo] at hl
      set ch1 := if started && isStripEmpty c0 then rest0 else c0 :: rest0 with hch
      split at hl
      · exact ih _ _ l hl
      · rcases List.mem_cons.1 hl with rfl | hl2
        · rw [List.length_flatten]
          exact buildLine_sumLen ch1
        · exact ih _ _ l hl2

/-- The embedded wrapper agrees with CPython `textwrap.wrap(s, 16)` on a
battery of representative titles: plain text, runs of spaces, leading
and trailing whitespace, hyphenated words at and across the width,
em-dash runs, over-long words with and without interior hyphens, and
whitespace-only input. -/
theorem wrap16_matches_textwrap :
    wrap16 "Some Book" = ["Some Book"] ∧
    wrap16 "Some  Book" = ["Some  Book"] ∧
    wrap16 "aaaaaaaa  bbbbbbb" = ["aaaaaaaa", "bbbbbbb"] ∧
    wrap16 "abcdefgh-ijklmnop qq" = ["abcdefgh-", "ijklmnop qq"] ∧
    wrap16 "ab xxxxxxxxxxxxxxxxxxxx" = ["ab xxxxxxxxxxxxx", "xxxxxxx"] ∧
    wrap16 "The Wandering Inn: Volume 1" = ["The Wandering", "Inn: Volume 1"] ∧
    wrap16 "Dungeon Crawler Carl (Book 1)" = ["Dungeon Crawler", "Carl (Book 1)"] ∧
    wrap16 "He Who Fights with Monsters" = ["He Who Fights", "with Monsters"] ∧
    wrap16 "abc-def-ghi-jkl-mno" = ["abc-def-ghi-jkl-", "mno"] ∧
    wrap16 "    leading spaces" = ["    leading", "spaces"] ∧
    wrap16 "trailing   " = ["trailing"] ∧
    wrap16 "  " = [] ∧
    wrap16 "" = [] ∧
    wrap16 "foo--bar" = ["foo--bar"] ∧
    wrap16 "hyphen-----x" = ["hyphen-----x"] ∧
    wrap16 "xxxxxxxxxxxxxxxxxxxxxxxxxxxxxxxxxxxxx" =
      ["xxxxxxxxxxxxxxxx", "xxxxxxxxxxxxxxxx", "xxxxx"] ∧
    wrap16 "aaaa-bbbbbbbbbbbbbbbbbbb" = ["aaaa-bbbbbbbbbbb", "bbbbbbbb"] ∧
    wrap16 "word aaaa-bbbbbbbbbbbbbbbbbbbb end" =
      ["word aaaa-bbbbbb", "bbbbbbbbbbbbbb", "end"] ∧
    wrap16 "abcdefghij-klmnopqrstuvwxyz" = ["abcdefghij-", "klmnopqrstuvwxyz"] ∧
    wrap16 "aaaaaaaaaaaaaaaa-bbb" = ["aaaaaaaaaaaaaaaa", "-bbb"] ∧
    wrap16 "seventeen-chars17" = ["seventeen-", "chars17"] ∧
    wrap16 "superlongwordwithhyphen-inthemiddleofit" =
      ["superlongwordwit", "hhyphen-", "inthemiddleofit"] ∧
    wrap16 "xxxxxxxxxxxxxxxx-yyyyyyyyyyyyyyyy-zz" =
      ["xxxxxxxxxxxxxxxx", "-yyyyyyyyyyyyyyy", "y-zz"] ∧
    wrap16 " a a a a a a a a a a a a a a a a a a a a" =
      [" a a a a a a a a", "a a a a a a a a", "a a a a"] ∧
    wrap16 "this is a long title that wraps over many lines for sure" =
      ["this is a long", "title that wraps", "over many lines", "for sure"] := by
  decide

/-- C7: the fallback tile for an item is a `118 × 180` block
(`floor(0.66 * 180) = 118`) filled with the dark neutral `(40, 40, 40)`,
whose drawn text lines are exactly the first six wrapped lines (at most
16 characters each) of the item's title — or of the itemId when no
title exists — rendered top-down at `y = 8 + 20 * i`, all further lines
dropped with no ellipsis. -/
theorem fallback_tile_spec (book_id : String) (titles : String → Option String) :
    (fallbackTile book_id titles).width = 118 ∧
    (fallbackTile book_id titles).height = 180 ∧
    (fallbackTile book_id titles).fill = (40, 40, 40) ∧
    ((fallbackTile book_id titles).texts.map TextDraw.text) =
      (wrap16 ((titles book_id).getD book_id)).take 6 ∧
    (fallbackTile book_id titles).texts.length ≤ 6 ∧
    (∀ i, ∀ hi : i < (fallbackTile book_id titles).texts.length,
      ((fallbackTile book_id titles).texts.get ⟨i, hi⟩).py = 8 + 20 * i ∧
      ((fallbackTile book_id titles).texts.get ⟨i, hi⟩).px = 6) ∧
    (∀ td ∈ (fallbackTile book_id titles).texts, td.text.length ≤ 16) ∧
    (titles book_id = none →
      ((fallbackTile book_id titles).texts.map TextDraw.text) = (wrap16 book_id).take 6) := by
  have htexts : ((fallbackTile book_id titles).texts.map TextDraw.text) =
      (wrap16 ((titles book_id).getD book_id)).take 6 := by
    simp only [fallbackTile, List.map_map]
    have : (TextDraw.text ∘ fun p : Nat × String => (⟨p.2, 6, 8 + 20 * p.1⟩ : TextDraw)) =
        Prod.snd := rfl
    rw [this, List.enum, enumFrom_map_snd]
  refine ⟨by simp [fallbackTile, TILE_H], rfl, rfl, htexts, ?_, ?_, ?_, ?_⟩
  · simp only [fallbackTile, List.length_map, List.enum_length]
    exact (List.length_take_le 6 _)
  · intro i hi
    constructor
    · simp only [List.get_eq_getElem, fallbackTile, List.getElem_map, List.getElem_enum]
    · simp only [List.get_eq_getElem, fallbackTile, List.getElem_map, List.getElem_enum]
  · intro td htd
    have hmm : td.text ∈ (fallbackTile book_id titles).texts.map TextDraw.text :=
      List.mem_map_of_mem TextDraw.text htd
    rw [htexts] at hmm
    have hmem := List.mem_of_mem_take hmm
    simp only [wrap16, List.mem_map] at hmem
    obtain ⟨cs, hcs, heq⟩ := hmem
    have hlen := wrapGo_lines_le _ false _ cs hcs
    rw [← heq]
    exact hlen
  · intro hnone
    rw [htexts, hnone]
    rfl

/-- Witness for C7 at a concrete input (no title recorded, so the
itemId's wrapped lines are drawn). -/
theorem fallback_tile_spec_witness :
    ((fallbackTile "Some Book" (fun _ => none)).texts.map TextDraw.text) =
      (wrap16 "Some Book").take 6 :=
  (fallback_tile_spec "Some Book" (fun _ => none)).2.2.2.2.2.2.2 rfl

/-- Distinct association-list keys force equal entries from equal keys. -/
theorem nodup_keys_eq {l : List (String × String)}
    (h : (l.map Prod.fst).Nodup) {p q : String × String}
    (hp : p ∈ l) (hq : q ∈ l) (hfst : p.1 = q.1) : p = q := by
  induction l with
  | nil => cases hp
  | cons hd tl ih =>
    simp only [List.map_cons, List.nodup_cons] at h
    simp only [List.mem_cons] at hp hq
    rcases hp with hp1 | hp2 <;> rcases hq with hq1 | hq2
    · rw [hp1, hq1]
    · exfalso
      apply h.1
      rw [← hp1, hfst]
      exact List.mem_map_of_mem Prod.fst hq2
    · exfalso
      apply h.1
      rw [← hq1, ← hfst]
      exact List.mem_map_of_mem Prod.fst hp2
    · exact ih h.2 hp2 hq2

theorem specBuckets_keys (ranks : List (String × String)) :
    (specBuckets ranks).map Prod.fst = tierKeys := by
  simp only [specBuckets, List.map_map]
  rfl

/-- The source bucketing fold agrees with the declarative description:
each tier, in `TIERS` order, collects the ranked ids routed to it. -/
theorem bucketsOf_eq_specBuckets (ranks : List (String × String)) :
    bucketsOf ranks = specBuckets ranks := by
  induction ranks using List.reverseRecOn with
  | nil => simp [bucketsOf, specBuckets]
  | append_singleton rs kv ih =>
    have hsnoc : bucketsOf (rs ++ [kv]) =
        (bucketsOf rs).map (fun b =>
          if b.1 = (if ((bucketsOf rs).map Prod.fst).contains kv.2.toUpper
                    then kv.2.toUpper else "F")
          then (b.1, b.2 ++ [kv.1]) else b) := by
      simp only [bucketsOf, List.foldl_append, List.foldl_cons, List.foldl_nil]
    rw [hsnoc, ih, specBuckets_keys]
    have ht2 : (if tierKeys.contains kv.2.toUpper then kv.2.toUpper else "F") =
        targetTier kv.2 := rfl
    rw [ht2]
    simp only [specBuckets, List.map_map, List.filterMap_append]
    apply List.map_congr_left
    intro tier _
    simp only [Function.comp]
    by_cases h : tier.key = targetTier kv.2
    · rw [if_pos h]
      simp [List.filterMap_cons, h.symm]
    · rw [if_neg h]
      simp only [List.filterMap_cons, List.filterMap_nil]
      rw [show (if targetTier kv.2 = tier.key then some kv.1 else none) = none from
        if_neg (fun heq => h heq.symm)]
      simp

/-- C1: bucketing uppercases each rank value and appends the itemId to
the bucket of the matching known tier key, routing unknown values to
`"F"`; buckets come out in `TIERS` order, and every ranked id lands in
exactly one bucket. -/
theorem bucketing_matches_tiers (ranks : List (String × String))
    (hnodup : (ranks.map Prod.fst).Nodup) :
    bucketsOf ranks = specBuckets ranks ∧
    (bucketsOf ranks).map Prod.fst = TIERS.map TierDef.key ∧
    ∀ id ∈ ranks.map Prod.fst,
      (bucketsOf ranks).countP (fun b => decide (id ∈ b.2)) = 1 := by
  refine ⟨bucketsOf_eq_specBuckets ranks, ?_, ?_⟩
  · rw [bucketsOf_eq_specBuckets]
    exact specBuckets_keys ranks
  · intro id hid
    obtain ⟨p, hp, hpfst⟩ := List.mem_map.1 hid
    rw [bucketsOf_eq_specBuckets, specBuckets, List.countP_map]
    have hcg : ∀ t ∈ TIERS,
        ((fun b : String × List String => decide (id ∈ b.2)) ∘
          (fun tier : TierDef =>
            (tier.key,
             ranks.filterMap fun kv =>
               if targetTier kv.2 = tier.key then some kv.1 else none))) t = true ↔
          (decide (targetTier p.2 = t.key) : Bool) = true := by
      intro t _
      simp only [Function.comp, decide_eq_true_eq]
      constructor
      · intro hmem
        obtain ⟨q, hq, hgq⟩ := List.mem_filterMap.1 hmem
        by_cases hcond : targetTier q.2 = t.key
        · rw [if_pos hcond] at hgq
          injection hgq with hq1
          have hqp : q = p := nodup_keys_eq hnodup hq hp (by rw [hq1, hpfst])
          rw [← hqp]
          exact hcond
        · rw [if_neg hcond] at hgq
          cases hgq
      · intro htt
        refine List.mem_filterMap.2 ⟨p, hp, ?_⟩
        rw [if_pos htt, hpfst]
    rw [List.countP_congr hcg]
    have hmem : targetTier p.2 ∈ tierKeys := by
      unfold targetTier
      split
      · exact List.elem_iff.1 ‹_›
      · decide
    simp only [tierKeys, TIERS, List.map_cons, List.map_nil, List.mem_cons,
      List.not_mem_nil, or_false] at hmem
    rcases hmem with h | h | h | h | h | h | h | h <;> rw [h] <;> decide

/-- Witness for C1 at a concrete ranks mapping: a lowercase known key
and an unknown key. -/
theorem bucketing_matches_tiers_witness :
    ([("b1", "s"), ("b2", "Q")].map (@Prod.fst String String)).Nodup ∧
    (bucketsOf [("b1", "s"), ("b2", "Q")] = specBuckets [("b1", "s"), ("b2", "Q")] ∧
     (bucketsOf [("b1", "s"), ("b2", "Q")]).map Prod.fst = TIERS.map TierDef.key ∧
     ∀ id ∈ ([("b1", "s"), ("b2", "Q")].map (@Prod.fst String String)),
       (bucketsOf [("b1", "s"), ("b2", "Q")]).countP (fun b => decide (id ∈ b.2)) = 1) :=
  ⟨by decide, bucketing_matches_tiers [("b1", "s"), ("b2", "Q")] (by decide)⟩

theorem dictInsert_keys (l : List (String × String)) (k v : String) :
    (dictInsert l k v).map Prod.fst =
      if k ∈ l.map Prod.fst then l.map Prod.fst else l.map Prod.fst ++ [k] := by
  induction l with
  | nil => simp [dictInsert]
  | cons p rest ih =>
    by_cases hpk : p.1 = k
    · simp [dictInsert, hpk]
    · simp only [dictInsert, if_neg hpk, List.map_cons, ih]
      by_cases hk : k ∈ rest.map Prod.fst
      · rw [if_pos hk, if_pos (show k ∈ p.1 :: rest.map Prod.fst from List.mem_cons_of_mem _ hk)]
      · rw [if_neg hk, if_neg (show k ∉ p.1 :: rest.map Prod.fst from by
          intro hmem
          rcases List.mem_cons.1 hmem with heq | hmem2
          · exact hpk heq.symm
          · exact hk hmem2)]
        simp

theorem dictInsert_keys_nodup (l : List (String × String)) (k v : String)
    (h : (l.map Prod.fst).Nodup) : ((dictInsert l k v).map Prod.fst).Nodup := by
  rw [dictInsert_keys]
  by_cases hk : k ∈ l.map Prod.fst
  · rw [if_pos hk]
    exact h
  · rw [if_neg hk, List.nodup_append]
    refine ⟨h, List.nodup_singleton k, ?_⟩
    intro a ha hb
    rw [List.mem_singleton] at hb
    subst hb
    exact hk ha

theorem dictInsert_mem (l : List (String × String)) (k v : String)
    (h : (l.map Prod.fst).Nodup) (a b : String) :
    (a, b) ∈ dictInsert l k v ↔ (a = k ∧ b = v) ∨ ((a, b) ∈ l ∧ a ≠ k) := by
  induction l with
  | nil => simp [dictInsert]
  | cons p rest ih =>
    simp only [List.map_cons, List.nodup_cons] at h
    by_cases hpk : p.1 = k
    · simp only [dictInsert, if_pos hpk, List.mem_cons]
      constructor
      · rintro (heq | hmem)
        · exact Or.inl ⟨congrArg Prod.fst heq, congrArg Prod.snd heq⟩
        · refine Or.inr ⟨Or.inr hmem, ?_⟩
          intro hak
          have hin : a ∈ rest.map Prod.fst := List.mem_map_of_mem Prod.fst hmem
          rw [hak, ← hpk] at hin
          exact h.1 hin
      · rintro (⟨rfl, rfl⟩ | ⟨hmem, hne⟩)
        · exact Or.inl rfl
        · rcases hmem with heq | hmem2
          · exact absurd ((congrArg Prod.fst heq).trans hpk) hne
          · exact Or.inr hmem2
    · simp only [dictInsert, if_neg hpk, List.mem_cons, ih h.2]
      constructor
      · rintro (heq | (⟨rfl, rfl⟩ | ⟨hmem, hne⟩))
        · refine Or.inr ⟨Or.inl heq, ?_⟩
          intro hak
          exact hpk ((congrArg Prod.fst heq).symm.trans hak)
        · exact Or.inl ⟨rfl, rfl⟩
        · exact Or.inr ⟨Or.inr hmem, hne⟩
      · rintro (⟨rfl, rfl⟩ | ⟨hmem, hne⟩)
        · exact Or.inr (Or.inl ⟨rfl, rfl⟩)
        · rcases hmem with heq | hmem2
          · exact Or.inl heq
          · exact Or.inr (Or.inr ⟨hmem2, hne⟩)

theorem extract_ranks_snoc_none (fs : List (String × String)) (kv : String × String)
    (hm : pyMatchId kv.1 = none) : extract_ranks (fs ++ [kv]) = extract_ranks fs := by
  simp only [extract_ranks, List.foldl_append, List.foldl_cons, List.foldl_nil, hm]

theorem extract_ranks_snoc_some (fs : List (String × String)) (kv : String × String)
    (i : String) (hm : pyMatchId kv.1 = some i) (hv : kv.2 ≠ "") :
    extract_ranks (fs ++ [kv]) = dictInsert (extract_ranks fs) i kv.2 := by
  simp only [extract_ranks, List.foldl_append, List.foldl_cons, List.foldl_nil, hm, if_pos hv]

theorem extract_ranks_snoc_empty (fs : List (String × String)) (kv : String × String)
    (i : String) (hm : pyMatchId kv.1 = some i) (hv : kv.2 = "") :
    extract_ranks (fs ++ [kv]) = extract_ranks fs := by
  simp only [extract_ranks, List.foldl_append, List.foldl_cons, List.foldl_nil, hm]
  rw [if_neg (fun hne => hne hv)]

theorem extract_ranks_keys_nodup (form : List (String × String)) :
    ((extract_ranks form).map Prod.fst).Nodup := by
  induction form using List.reverseRecOn with
  | nil => simp [extract_ranks]
  | append_singleton fs kv ih =>
    cases hm : pyMatchId kv.1 with
    | none => rw [extract_ranks_snoc_none fs kv hm]; exact ih
    | some i =>
      by_cases hv : kv.2 = ""
      · rw [extract_ranks_snoc_empty fs kv i hm hv]
        exact ih
      · rw [extract_ranks_snoc_some fs kv i hm hv]
        exact dictInsert_keys_nodup _ _ _ ih

/-- C5: `extract_ranks` returns exactly the entries whose form key
matches the bracket form `ranks[ID]` or the dot form `ranks.ID` with a
non-empty value — unmatched keys contribute nothing, empty values are
dropped, the ID is the captured group verbatim, and the submitted value
is preserved as-is.  (The form is a dict, so its keys are distinct; the
captured IDs are additionally assumed not to collide across distinct
keys, which keeps "the entries" well defined.) -/
theorem extract_ranks_exact (form : List (String × String))
    (hkeys : (form.map Prod.fst).Nodup)
    (hinj : ∀ p ∈ form, ∀ q ∈ form,
      pyMatchId p.1 ≠ none → pyMatchId p.1 = pyMatchId q.1 → p.1 = q.1) :
    ∀ id v, (id, v) ∈ extract_ranks form ↔
      ∃ k, (k, v) ∈ form ∧ pyMatchId k = some id ∧ v ≠ "" := by
  induction form using List.reverseRecOn with
  | nil =>
    intro id v
    simp [extract_ranks]
  | append_singleton fs kv ih =>
    rw [List.map_append] at hkeys
    have hkeys' : (fs.map Prod.fst).Nodup := List.Nodup.of_append_left hkeys
    have hinj' : ∀ p ∈ fs, ∀ q ∈ fs,
        pyMatchId p.1 ≠ none → pyMatchId p.1 = pyMatchId q.1 → p.1 = q.1 :=
      fun p hp q hq => hinj p (List.mem_append_left _ hp) q (List.mem_append_left _ hq)
    have IH := ih hkeys' hinj'
    have hfresh : kv.1 ∉ fs.map Prod.fst := by
      intro hmem
      exact (List.nodup_append.1 (by simpa using hkeys)).2.2 hmem (List.mem_singleton_self kv.1)
    intro id v
    cases hm : pyMatchId kv.1 with
    | none =>
      rw [extract_ranks_snoc_none fs kv hm, IH id v]
      constructor
      · rintro ⟨k, hk, hkm, hv⟩
        exact ⟨k, List.mem_append_left _ hk, hkm, hv⟩
      · rintro ⟨k, hk, hkm, hv⟩
        rcases List.mem_append.1 hk with hk2 | hk2
        · exact ⟨k, hk2, hkm, hv⟩
        · have hk1 : k = kv.1 := congrArg Prod.fst (List.mem_singleton.1 hk2)
          rw [hk1, hm] at hkm
          cases hkm
    | some i =>
      by_cases hv0 : kv.2 = ""
      · rw [extract_ranks_snoc_empty fs kv i hm hv0, IH id v]
        constructor
        · rintro ⟨k, hk, hkm, hv⟩
          exact ⟨k, List.mem_append_left _ hk, hkm, hv⟩
        · rintro ⟨k, hk, hkm, hv⟩
          rcases List.mem_append.1 hk with hk2 | hk2
          · exact ⟨k, hk2, hkm, hv⟩
          · have hv2 : v = kv.2 := congrArg Prod.snd (List.mem_singleton.1 hk2)
            rw [hv2, hv0] at hv
            exact absurd rfl hv
      · rw [extract_ranks_snoc_some fs kv i hm hv0,
          dictInsert_mem _ _ _ (extract_ranks_keys_nodup fs)]
        constructor
        · rintro (⟨rfl, rfl⟩ | ⟨hmem, hne⟩)
          · exact ⟨kv.1, List.mem_append_right _ (by simp), hm, hv0⟩
          · obtain ⟨k, hk, hkm, hv⟩ := (IH id v).1 hmem
            exact ⟨k, List.mem_append_left _ hk, hkm, hv⟩
        · rintro ⟨k, hk, hkm, hv⟩
          rcases List.mem_append.1 hk with hk2 | hk2
          · right
            refine ⟨(IH id v).2 ⟨k, hk2, hkm, hv⟩, ?_⟩
            intro hidi
            have hkkv : k = kv.1 := by
              apply hinj (k, v) (List.mem_append_left _ hk2) kv
                (List.mem_append_right _ (List.mem_singleton_self kv))
              · rw [hkm]
                exact fun hc => Option.noConfusion hc
              · rw [hkm, hm, hidi]
            exact hfresh (hkkv ▸ List.mem_map_of_mem Prod.fst hk2)
          · left
            have heq := List.mem_singleton.1 hk2
            have hk1 : k = kv.1 := congrArg Prod.fst heq
            have hv2 : v = kv.2 := congrArg Prod.snd heq
            rw [hk1, hm] at hkm
            injection hkm with hid
            exact ⟨hid.symm, hv2⟩

/-- Witness for C5 at the specification's concrete form: bracket and dot
keys are captured with values preserved, other keys ignored. -/
theorem extract_ranks_exact_witness :
    (([("ranks[b1]", "S"), ("ranks.b2", "a"), ("other", "x")].map
        (@Prod.fst String String)).Nodup) ∧
    (("b1", "S") ∈ extract_ranks [("ranks[b1]", "S"), ("ranks.b2", "a"), ("other", "x")] ↔
      ∃ k, (k, "S") ∈ [("ranks[b1]", "S"), ("ranks.b2", "a"), ("other", "x")] ∧
        pyMatchId k = some "b1" ∧ "S" ≠ "") :=
  ⟨by decide,
   extract_ranks_exact [("ranks[b1]", "S"), ("ranks.b2", "a"), ("other", "x")]
     (by decide) (by decide) "b1" "S"⟩

theorem processChunk_length (hs : List Nat) (c : List Nat) :
    (processChunk hs c).length = 8 := rfl

theorem sha256Words_length (msg : List Nat) : (sha256Words msg).length = 8 := by
  have hgen : ∀ (cs : List (List Nat)) (hs : List Nat), hs.length = 8 →
      (cs.foldl processChunk hs).length = 8 := by
    intro cs
    induction cs with
    | nil => intro hs h; exact h
    | cons c cs ih => intro hs h; exact ih _ (processChunk_length hs c)
  exact hgen _ shaH0 rfl

theorem wordHex_length (n : Nat) : (wordHex n).length = 8 := by
  simp [wordHex]

theorem hexdigest_length (msg : List Nat) : (hexdigest msg).length = 64 := by
  unfold hexdigest
  rw [List.length_flatten, List.map_map]
  have hc : (List.length ∘ wordHex) = fun _ : Nat => 8 := funext fun n => wordHex_length n
  rw [hc, List.map_const', sha256Words_length]
  rfl

theorem truncDigest_length (s : String) (n : Nat) (h : n ≤ 64) :
    (truncDigest s n).length = n := by
  simp [truncDigest, hexdigest_length, h]

theorem char_finite : Finite Char := by
  apply Finite.of_injective
    (fun c : Char => (⟨c.val.toNat, UInt32.toNat_lt_size c.val⟩ : Fin UInt32.size))
  intro a b h
  exact Char.ext (UInt32.toNat.inj (congrArg Fin.val h))

/-- C4's universal isolation guarantee fails in principle: the cache
directory name keeps only the first 16 hex characters of the namespace
digest, and a function from the infinitely many namespace strings into
the finitely many length-16 character strings cannot be injective, so
two distinct non-null namespaces exist whose cache paths coincide for
every URL. -/
theorem cache_path_distinctness_fails :
    ¬ ∀ ns₁ ns₂ : String, ns₁ ≠ "" → ns₂ ≠ "" → ns₁ ≠ ns₂ →
        ∀ root url : String,
          cache_path root url (some ns₁) ≠ cache_path root url (some ns₂) := by
  intro hclaim
  haveI : Finite Char := char_finite
  obtain ⟨m, n, hmn, hf⟩ := Finite.exists_ne_map_eq_of_infinite
    (fun (k : ℕ) (i : Fin 16) =>
      (truncDigest (String.mk (List.replicate (k + 1) 'a')) 16).getD i.val 'a')
  have hlen : ∀ k : ℕ,
      (truncDigest (String.mk (List.replicate (k + 1) 'a')) 16).length = 16 :=
    fun k => truncDigest_length _ _ (by norm_num)
  have htd : truncDigest (String.mk (List.replicate (m + 1) 'a')) 16 =
      truncDigest (String.mk (List.replicate (n + 1) 'a')) 16 := by
    apply List.ext_getElem (by rw [hlen, hlen])
    intro i h1 h2
    have hfi := congrFun hf ⟨i, by rw [← hlen m]; exact h1⟩
    rw [List.getD_eq_getElem _ 'a' h1, List.getD_eq_getElem _ 'a' h2] at hfi
    exact hfi
  have hne1 : String.mk (List.replicate (m + 1) 'a') ≠ "" := by
    intro h
    have hlc := congrArg String.length h
    simp [String.length] at hlc
  have hne2 : String.mk (List.replicate (n + 1) 'a') ≠ "" := by
    intro h
    have hlc := congrArg String.length h
    simp [String.length] at hlc
  have hrepne : String.mk (List.replicate (m + 1) 'a') ≠
      String.mk (List.replicate (n + 1) 'a') := by
    intro h
    apply hmn
    have hlc := congrArg String.length h
    simp only [String.length, List.length_replicate] at hlc
    omega
  apply hclaim _ _ hne1 hne2 hrepne "r" "u"
  simp only [cache_path, ns_dir, nsComponent]
  rw [if_neg hne1, if_neg hne2, htd]

/-- C4 amended: the cache path is deterministic — directory `"shared"`
for a null namespace, else the first 16 hex characters of the
namespace's SHA-256; filename the first 32 hex characters of the URL's
SHA-256 plus `".jpg"` — and two non-null namespaces whose truncated
digests differ yield distinct cache paths for the same URL. -/
theorem cache_path_structure_isolation :
    (∀ root url : String,
      cache_path root url none =
        root ++ "/" ++ "shared" ++ "/" ++ String.mk (truncDigest url 32) ++ ".jpg") ∧
    (∀ root url ns, ns ≠ "" →
      cache_path root url (some ns) =
        root ++ "/" ++ String.mk (truncDigest ns 16) ++ "/" ++
          String.mk (truncDigest url 32) ++ ".jpg") ∧
    (∀ root url ns₁ ns₂, ns₁ ≠ "" → ns₂ ≠ "" →
      truncDigest ns₁ 16 ≠ truncDigest ns₂ 16 →
      cache_path root url (some ns₁) ≠ cache_path root url (some ns₂)) := by
  refine ⟨fun root url => rfl, fun root url ns hns => ?_, fun root url ns₁ ns₂ h1 h2 hd heq => ?_⟩
  · simp only [cache_path, ns_dir, nsComponent]
    rw [if_neg hns]
  · apply hd
    have hdata := congrArg String.data heq
    simp only [cache_path, ns_dir, nsComponent] at hdata
    rw [if_neg h1, if_neg h2] at hdata
    simp only [String.data_append, List.append_assoc] at hdata
    have e1 := List.append_cancel_left hdata
    have e2 := List.append_cancel_left e1
    exact List.append_cancel_right e2

set_option maxRecDepth 100000 in
/-- Witness for the amended C4 at concrete namespaces: the truncated
digests of "alice" and "bob" differ, so their cache paths for the same
URL differ. -/
theorem cache_path_structure_isolation_witness :
    truncDigest "alice" 16 ≠ truncDigest "bob" 16 ∧
    cache_path "r" "u" (some "alice") ≠ cache_path "r" "u" (some "bob") := by
  have hd : truncDigest "alice" 16 ≠ truncDigest "bob" 16 := by decide
  exact ⟨hd, cache_path_structure_isolation.2.2 "r" "u" "alice" "bob"
    (by decide) (by decide) hd⟩
